import Mathlib

/-!
# Verification of the Kohonen clustering script

A shallow embedding, over exact rationals, of the numeric pipeline of
`Kohones.py`: cleaning of amounts and category labels, the pivot
aggregation into an entity-by-category matrix, min-max normalization,
the grid-size heuristic, the SOM winner (best matching unit) lookup,
the grouping of accounts by winner coordinates, and the per-group
dominant-category analysis.
-/

namespace Kohonen

/-- A cleaned transaction row of the dataframe: account (`konto`),
category code (`paragraf`) and amount (`kwota`).  Amounts are modelled
as exact rationals. -/
structure Rec where
  konto : String
  paragraf : String
  kwota : ℚ
  deriving DecidableEq, Repr

/-- One accumulation step of the pivot aggregation: add `v` to the
entry of key `k`, inserting the key at the end when it is new.  This is
how `pivot_table(..., aggfunc='sum')` accumulates the group sums. -/
def bump (m : List ((String × String) × ℚ)) (k : String × String) (v : ℚ) :
    List ((String × String) × ℚ) :=
  match m with
  | [] => [(k, v)]
  | (k', v') :: rest =>
    if k' = k then (k', v' + v) :: rest else (k', v') :: bump rest k v

/-- The pivot aggregation of `df.pivot_table(index='konto',
columns='paragraf', values='kwota', aggfunc='sum')`: fold over the rows,
summing the amounts of each `(konto, paragraf)` group. -/
def sumAgg (recs : List Rec) : List ((String × String) × ℚ) :=
  recs.foldl (fun m r => bump m (r.konto, r.paragraf) r.kwota) []

/-- Lookup with default, modelling `fill_value=0` of the pivot table:
a `(konto, paragraf)` pair with no record gets the entry `0`. -/
def lookupD (m : List ((String × String) × ℚ)) (k : String × String) : ℚ :=
  match m with
  | [] => 0
  | (k', v) :: rest => if k' = k then v else lookupD rest k

/-- The entry of `pivot_df` at row `e` (account) and column `c`
(category): the aggregated sum for the pair, `0` when the pair never
occurs (`fill_value=0`). -/
def pivotEntry (recs : List Rec) (e c : String) : ℚ :=
  lookupD (sumAgg recs) (e, c)

/-- The row labels of `pivot_df`: the distinct accounts, sorted
(pandas sorts the index of a pivot table). -/
def pivotIndex (recs : List Rec) : List String :=
  ((recs.map Rec.konto).dedup).insertionSort (· ≤ ·)

/-- The column labels of `pivot_df`: the distinct category codes,
sorted (pandas sorts the columns of a pivot table). -/
def pivotCols (recs : List Rec) : List String :=
  ((recs.map Rec.paragraf).dedup).insertionSort (· ≤ ·)

/-- Minimum of a list of rationals, seeded with the head (the
embedding of `numpy.min(axis=0)` applied to one column). -/
def listMin : List ℚ → ℚ
  | [] => 0
  | [x] => x
  | x :: y :: rest => min x (listMin (y :: rest))

/-- Maximum of a list of rationals, seeded with the head (the
embedding of `numpy.max(axis=0)` applied to one column). -/
def listMax : List ℚ → ℚ
  | [] => 0
  | [x] => x
  | x :: y :: rest => max x (listMax (y :: rest))

/-- Column `j` of a matrix given as a list of rows. -/
def colVals (m : List (List ℚ)) (j : ℕ) : List ℚ :=
  m.map (fun r => r.getD j 0)

/-- `data_values.min(axis=0)` at column `j`. -/
def colMin (m : List (List ℚ)) (j : ℕ) : ℚ :=
  listMin (colVals m j)

/-- `data_values.max(axis=0)` at column `j`. -/
def colMax (m : List (List ℚ)) (j : ℕ) : ℚ :=
  listMax (colVals m j)

/-- The `1e-10` guard of the normalization denominator. -/
def eps : ℚ := 1 / 10 ^ 10

/-- The min-max normalization of the script,
`(data_values - min(axis=0)) / (max(axis=0) - min(axis=0) + 1e-10)`,
applied entrywise with column-wise minima and maxima. -/
def data_normalized (m : List (List ℚ)) : List (List ℚ) :=
  m.map (fun row => (List.range row.length).map
    (fun j => (row.getD j 0 - colMin m j) / (colMax m j - colMin m j + eps)))

lemma listMin_le {l : List ℚ} {x : ℚ} (hx : x ∈ l) : listMin l ≤ x := by
  induction l with
  | nil => cases hx
  | cons a rest ih =>
    cases rest with
    | nil =>
      rcases List.mem_cons.mp hx with h | h
      · simp [listMin, h]
      · cases h
    | cons b rest' =>
      rcases List.mem_cons.mp hx with h | h
      · subst h
        exact min_le_left _ _
      · exact le_trans (min_le_right _ _) (ih h)

lemma le_listMax {l : List ℚ} {x : ℚ} (hx : x ∈ l) : x ≤ listMax l := by
  induction l with
  | nil => cases hx
  | cons a rest ih =>
    cases rest with
    | nil =>
      rcases List.mem_cons.mp hx with h | h
      · simp [listMax, h]
      · cases h
    | cons b rest' =>
      rcases List.mem_cons.mp hx with h | h
      · subst h
        exact le_max_left _ _
      · exact le_trans (ih h) (le_max_right _ _)

lemma eps_pos : (0 : ℚ) < eps := by norm_num [eps]

lemma colMin_le_entry (m : List (List ℚ)) (i j : ℕ) (hi : i < m.length) :
    colMin m j ≤ (m.getD i []).getD j 0 := by
  apply listMin_le
  have hmem : m.getD i [] ∈ m := by
    rw [List.getD_eq_getElem m [] hi]
    exact List.getElem_mem hi
  exact List.mem_map_of_mem _ hmem

lemma entry_le_colMax (m : List (List ℚ)) (i j : ℕ) (hi : i < m.length) :
    (m.getD i []).getD j 0 ≤ colMax m j := by
  apply le_listMax
  have hmem : m.getD i [] ∈ m := by
    rw [List.getD_eq_getElem m [] hi]
    exact List.getElem_mem hi
  exact List.mem_map_of_mem _ hmem

lemma data_normalized_entry (m : List (List ℚ)) (i j : ℕ) (hi : i < m.length)
    (hj : j < (m.getD i []).length) :
    ((data_normalized m).getD i []).getD j 0
      = ((m.getD i []).getD j 0 - colMin m j) / (colMax m j - colMin m j + eps) := by
  have hlen : i < (data_normalized m).length := by
    simpa [data_normalized] using hi
  rw [List.getD_eq_getElem _ [] hlen]
  have hrow : (data_normalized m)[i]
      = (List.range (m.getD i []).length).map
        (fun j => ((m.getD i []).getD j 0 - colMin m j) / (colMax m j - colMin m j + eps)) := by
    simp only [data_normalized]
    rw [List.getElem_map]
    rw [List.getD_eq_getElem m [] hi]
  rw [hrow]
  have hj' : j < ((List.range (m.getD i []).length).map
      (fun j => ((m.getD i []).getD j 0 - colMin m j) / (colMax m j - colMin m j + eps))).length := by
    simpa using hj
  rw [List.getD_eq_getElem _ 0 hj', List.getElem_map, List.getElem_range]

/-- Squared Euclidean distance between a weight vector and an input
vector (`MiniSom` computes `norm(x - w)`; minimizing the norm is
minimizing the square, compared exactly here). -/
def sqDist (w x : List ℚ) : ℚ :=
  (List.zipWith (fun a b => (a - b) ^ 2) w x).sum

/-- The activation map of `MiniSom.winner`, flattened in row-major
order as `numpy` stores it: the distance of `x` to every neuron. -/
def activations (g : List (List (List ℚ))) (x : List ℚ) : List ℚ :=
  (g.map (fun row => row.map (fun w => sqDist w x))).flatten

/-- Index of the first minimum of a list (`numpy.argmin` returns the
first index attaining the minimum). -/
def argminIdx : List ℚ → ℕ
  | [] => 0
  | [_] => 0
  | x :: y :: rest =>
    if x ≤ listMin (y :: rest) then 0 else argminIdx (y :: rest) + 1

/-- `som.winner(x)`: the flat `argmin` of the activation map, unraveled
to `(row, col)` coordinates of the grid. -/
def winner (g : List (List (List ℚ))) (x : List ℚ) : ℕ × ℕ :=
  (argminIdx (activations g x) / (g.headD []).length,
   argminIdx (activations g x) % (g.headD []).length)

lemma sqDist_nonneg (w x : List ℚ) : 0 ≤ sqDist w x := by
  induction w generalizing x with
  | nil => simp [sqDist]
  | cons a w ih =>
    cases x with
    | nil => simp [sqDist]
    | cons b x =>
      have h := ih x
      simp only [sqDist, List.zipWith_cons_cons, List.sum_cons] at h ⊢
      nlinarith [sq_nonneg (a - b)]

lemma argminIdx_lt_length {l : List ℚ} (h : l ≠ []) : argminIdx l < l.length := by
  induction l with
  | nil => exact absurd rfl h
  | cons x rest ih =>
    cases rest with
    | nil => simp [argminIdx]
    | cons y rest' =>
      by_cases hx : x ≤ listMin (y :: rest')
      · simp [argminIdx, hx]
      · have h' := ih (by simp)
        simp only [argminIdx, if_neg hx, List.length_cons] at h' ⊢
        omega

lemma getD_argminIdx {l : List ℚ} (h : l ≠ []) : l.getD (argminIdx l) 0 = listMin l := by
  induction l with
  | nil => exact absurd rfl h
  | cons x rest ih =>
    cases rest with
    | nil => simp [argminIdx, listMin]
    | cons y rest' =>
      by_cases hx : x ≤ listMin (y :: rest')
      · simp [argminIdx, hx, listMin, min_eq_left hx]
      · push_neg at hx
        have ih' := ih (by simp)
        simp only [argminIdx, if_neg (not_le.mpr hx), List.getD_cons_succ, ih']
        simp [listMin, min_eq_right hx.le]

lemma argminIdx_first {l : List ℚ} {i : ℕ} (h : i < argminIdx l) :
    listMin l < l.getD i 0 := by
  induction l generalizing i with
  | nil => simp [argminIdx] at h
  | cons x rest ih =>
    cases rest with
    | nil => simp [argminIdx] at h
    | cons y rest' =>
      by_cases hx : x ≤ listMin (y :: rest')
      · rw [argminIdx, if_pos hx] at h
        exact absurd h (Nat.not_lt_zero i)
      · push_neg at hx
        rw [argminIdx, if_neg (not_le.mpr hx)] at h
        cases i with
        | zero =>
          simpa [listMin, min_eq_right hx.le] using hx
        | succ i' =>
          have hi' : i' < argminIdx (y :: rest') := Nat.lt_of_succ_lt_succ h
          have := ih hi'
          simp only [List.getD_cons_succ]
          calc listMin (x :: y :: rest') ≤ listMin (y :: rest') := by
                simp [listMin, min_le_right]
          _ < (y :: rest').getD i' 0 := this

lemma flatten_length_rect (ll : List (List ℚ)) (C : ℕ)
    (h : ∀ row ∈ ll, row.length = C) : ll.flatten.length = ll.length * C := by
  induction ll with
  | nil => simp
  | cons row rest ih =>
    have hrow : row.length = C := h row (by simp)
    have ih' := ih (fun r hr => h r (by simp [hr]))
    simp only [List.flatten_cons, List.length_append, List.length_cons, ih', hrow,
      Nat.succ_mul]
    ring

lemma flatten_getD_rect (ll : List (List ℚ)) (C : ℕ)
    (h : ∀ row ∈ ll, row.length = C) (i j : ℕ) (hi : i < ll.length) (hj : j < C) :
    ll.flatten.getD (i * C + j) 0 = (ll.getD i []).getD j 0 := by
  induction ll generalizing i with
  | nil => cases hi
  | cons row rest ih =>
    have hrow : row.length = C := h row (by simp)
    cases i with
    | zero =>
      simp only [List.flatten_cons, Nat.zero_mul, Nat.zero_add, List.getD_cons_zero]
      exact List.getD_append row rest.flatten 0 j (by rw [hrow]; exact hj)
    | succ i' =>
      have hi' : i' < rest.length := Nat.lt_of_succ_lt_succ hi
      have ih' := ih (fun r hr => h r (by simp [hr])) i' hi'
      simp only [List.flatten_cons, List.getD_cons_succ]
      have hge : row.length ≤ (i' + 1) * C + j := by
        rw [hrow]
        calc C ≤ C + (i' * C + j) := Nat.le_add_right _ _
        _ = (i' + 1) * C + j := by ring
      rw [List.getD_append_right row rest.flatten 0 _ hge]
      have harith : (i' + 1) * C + j - row.length = i' * C + j := by
        rw [hrow, Nat.succ_mul]
        generalize i' * C = a
        omega
      rw [harith]
      exact ih'

lemma lex_of_flat_le {r c i j C : ℕ} (_hc : c < C) (hj : j < C)
    (h : r * C + c ≤ i * C + j) : r < i ∨ (r = i ∧ c ≤ j) := by
  rcases Nat.lt_trichotomy r i with hlt | heq | hgt
  · exact Or.inl hlt
  · subst heq
    exact Or.inr ⟨rfl, Nat.le_of_add_le_add_left h⟩
  · exfalso
    have h1 : (i + 1) * C ≤ r * C := Nat.mul_le_mul_right C hgt
    have h2 : i * C + j < (i + 1) * C := by
      rw [Nat.succ_mul]
      exact Nat.add_lt_add_left hj _
    have h3 : r * C ≤ r * C + c := Nat.le_add_right _ _
    omega

lemma activations_length (g : List (List (List ℚ))) (x : List ℚ) (C : ℕ)
    (hrect : ∀ row ∈ g, row.length = C) :
    (activations g x).length = g.length * C := by
  rw [activations, flatten_length_rect _ C, List.length_map]
  intro row hr
  rcases List.mem_map.mp hr with ⟨r, hrm, rfl⟩
  rw [List.length_map]
  exact hrect r hrm

lemma activations_getD (g : List (List (List ℚ))) (x : List ℚ) (C : ℕ)
    (hrect : ∀ row ∈ g, row.length = C) (i j : ℕ) (hi : i < g.length) (hj : j < C) :
    (activations g x).getD (i * C + j) 0 = sqDist ((g.getD i []).getD j []) x := by
  rw [activations]
  rw [flatten_getD_rect _ C
    (by
      intro row hr
      rcases List.mem_map.mp hr with ⟨r, hrm, rfl⟩
      rw [List.length_map]
      exact hrect r hrm)
    i j (by simpa using hi) hj]
  have hi' : i < (g.map (fun row => row.map (fun w => sqDist w x))).length := by
    simpa using hi
  rw [List.getD_eq_getElem _ [] hi', List.getElem_map]
  have hjlen : j < (g[i].map (fun w => sqDist w x)).length := by
    rw [List.length_map, hrect g[i] (List.getElem_mem hi)]
    exact hj
  rw [List.getD_eq_getElem _ 0 hjlen, List.getElem_map]
  have hjg : j < (g[i]).length := by
    rw [hrect g[i] (List.getElem_mem hi)]
    exact hj
  rw [List.getD_eq_getElem g [] hi, List.getD_eq_getElem _ [] hjg]

/-- `map_size`, the grid-size heuristic of the script,
`int(np.sqrt(5 * np.sqrt(N))) + 2`, written with natural-number square
roots (a theorem below shows it agrees with the exact real formula). -/
def map_size (N : ℕ) : ℕ :=
  Nat.sqrt (Nat.sqrt (25 * N)) + 2

/-- A Python value flowing into the cleaning helpers: a number or a
string. -/
inductive PyVal where
  | int (n : ℤ)
  | float (q : ℚ)
  | str (s : String)
  deriving DecidableEq, Repr

/-- The characters kept by `re.sub(r'[^\d,-]', '', value)`: digits,
commas and hyphens. -/
def keepChar (c : Char) : Bool :=
  c.isDigit || c = ',' || c = '-'

/-- Numeric value of a digit character. -/
def digitVal (c : Char) : ℕ := c.toNat - 48

/-- Value of a digit run read left to right. -/
def natVal (cs : List Char) : ℕ :=
  cs.foldl (fun acc c => 10 * acc + digitVal c) 0

/-- Value of the digits after the decimal point. -/
def fracVal (cs : List Char) : ℚ :=
  (natVal cs : ℚ) / 10 ^ cs.length

/-- Python `float(s)` on an unsigned body over the post-filter alphabet
(digits, dots, hyphens): digits with at most one decimal point and at
least one digit (`"12"`, `"12."`, `".5"`); anything else raises
`ValueError`, modelled as `none`. -/
def pyFloatUnsigned (cs : List Char) : Option ℚ :=
  let intPart := cs.takeWhile Char.isDigit
  let rest := cs.dropWhile Char.isDigit
  match rest with
  | [] => if intPart.isEmpty then none else some (natVal intPart : ℚ)
  | '.' :: frac =>
    if frac.all Char.isDigit && (!intPart.isEmpty || !frac.isEmpty) then
      some ((natVal intPart : ℚ) + fracVal frac)
    else none
  | _ => none

/-- Python `float(s)`: an optional leading sign, then an unsigned
number. -/
def pyFloat (cs : List Char) : Option ℚ :=
  match cs with
  | '-' :: rest => (pyFloatUnsigned rest).map (fun q => -q)
  | '+' :: rest => pyFloatUnsigned rest
  | _ => pyFloatUnsigned cs

/-- Python `strip()` on a character list: drop leading and trailing
whitespace. -/
def trimChars (cs : List Char) : List Char :=
  ((cs.dropWhile Char.isWhitespace).reverse.dropWhile Char.isWhitespace).reverse

/-- The string transformation of `clean_currency`: `strip()`, the
filtering `re.sub(r'[^\d,-]', '', value)`, then
`value.replace(',', '.')`. -/
def normalizeAmount (s : String) : List Char :=
  ((trimChars s.toList).filter keepChar).map (fun c => if c = ',' then '.' else c)

/-- `clean_currency`: `int` and `float` values pass through `float()`;
strings are normalized and parsed, and a `ValueError` yields `0.0`. -/
def clean_currency : PyVal → ℚ
  | .int n => (n : ℚ)
  | .float q => q
  | .str s => (pyFloat (normalizeAmount s)).getD 0

/-- Python `s.split(sep)` on character lists
(`''.split('.') == ['']`). -/
def pySplit (sep : Char) : List Char → List (List Char)
  | [] => [[]]
  | c :: cs =>
    if c = sep then [] :: pySplit sep cs
    else
      match pySplit sep cs with
      | [] => [[c]]
      | p :: ps => (c :: p) :: ps

/-- `clean_paragraph`: `str(value).split('.')[0].strip()` — the part
of the label before the first dot, trimmed. -/
def clean_paragraph (s : String) : String :=
  String.mk (trimChars ((pySplit '.' s.toList).headD []))

/-- A raw parsed row before cleaning: the amount may be any Python
value. -/
structure RawRec where
  konto : String
  paragraf : String
  kwota : PyVal
  deriving DecidableEq, Repr

/-- Cleaning of one dataframe row: `clean_currency` on `kwota` and
`clean_paragraph` on `paragraf`. -/
def cleanRow (r : RawRec) : Rec :=
  ⟨r.konto, clean_paragraph r.paragraf, clean_currency r.kwota⟩

/-- The errors the script run can surface.  `emptyInputError` is the
error the spec names; the code itself never raises it — on empty input
the dataframe has no columns and `df['kwota']` raises a
`KeyError('kwota')`. -/
inductive PipeError where
  | keyError (k : String)
  | emptyInputError
  deriving DecidableEq, Repr

/-- The column-cleaning step `df['kwota'].apply(clean_currency)` /
`df['paragraf'].apply(clean_paragraph)`: on an empty record list
`pd.DataFrame([])` has no columns, so `df['kwota']` raises
`KeyError('kwota')`; otherwise the rows are cleaned. -/
def cleanStep (raws : List RawRec) : Except PipeError (List Rec) :=
  match raws with
  | [] => .error (.keyError "kwota")
  | _ => .ok (raws.map cleanRow)

/-- The script pipeline up to the normalized matrix: clean the columns,
pivot into the sorted entity-by-category matrix, normalize.  A failure
halts before the pivot, normalization and training. -/
def scriptPipeline (raws : List RawRec) :
    Except PipeError (List String × List String × List (List ℚ)) :=
  (cleanStep raws).map (fun recs =>
    (pivotIndex recs, pivotCols recs,
     data_normalized ((pivotIndex recs).map (fun e =>
       (pivotCols recs).map (fun c => pivotEntry recs e c)))))

lemma pySplit_ne_nil (sep : Char) (cs : List Char) : pySplit sep cs ≠ [] := by
  induction cs with
  | nil => simp [pySplit]
  | cons c cs ih =>
    by_cases h : c = sep
    · simp [pySplit, h]
    · rw [pySplit, if_neg h]
      cases hps : pySplit sep cs with
      | nil => simp
      | cons p ps => simp

lemma pySplit_headD (sep : Char) (cs : List Char) :
    (pySplit sep cs).headD [] = cs.takeWhile (fun c => c ≠ sep) := by
  induction cs with
  | nil => simp [pySplit]
  | cons c cs ih =>
    by_cases h : c = sep
    · simp [pySplit, h, List.takeWhile]
    · rw [pySplit, if_neg h]
      cases hps : pySplit sep cs with
      | nil => exact absurd hps (pySplit_ne_nil sep cs)
      | cons p ps =>
        rw [hps] at ih
        simp only [List.headD_cons] at ih ⊢
        rw [List.takeWhile_cons]
        simp only [h, decide_eq_true_eq]
        rw [if_pos (by simpa using h), ← ih]

/-- One step of the grouping loop of the script: append account `a` to
the group keyed by winner coordinates `k`, creating the group when the
key is new (the `if winner not in grouped_accounts` branch). -/
def addToGroup (gs : List ((ℕ × ℕ) × List String)) (k : ℕ × ℕ) (a : String) :
    List ((ℕ × ℕ) × List String) :=
  match gs with
  | [] => [(k, [a])]
  | (k', as) :: rest =>
    if k' = k then (k', as ++ [a]) :: rest else (k', as) :: addToGroup rest k a

/-- `grouped_accounts`: fold over the `(account, normalized row)`
pairs in order, appending each account to the group of its winner. -/
def grouped_accounts (g : List (List (List ℚ))) (pairs : List (String × List ℚ)) :
    List ((ℕ × ℕ) × List String) :=
  pairs.foldl (fun gs p => addToGroup gs (winner g p.2) p.1) []

lemma flatten_addToGroup (gs : List ((ℕ × ℕ) × List String)) (k : ℕ × ℕ) (a : String) :
    ((addToGroup gs k a).map Prod.snd).flatten.Perm
      ((gs.map Prod.snd).flatten ++ [a]) := by
  induction gs with
  | nil => simp [addToGroup]
  | cons p rest ih =>
    obtain ⟨k', as⟩ := p
    by_cases h : k' = k
    · simp only [addToGroup, if_pos h, List.map_cons, List.flatten_cons]
      rw [List.append_assoc, List.append_assoc]
      exact List.Perm.append_left as List.perm_append_comm
    · simp only [addToGroup, if_neg h, List.map_cons, List.flatten_cons]
      rw [List.append_assoc]
      exact List.Perm.append_left as ih

lemma flatten_foldl_addToGroup (g : List (List (List ℚ)))
    (pairs : List (String × List ℚ)) (gs : List ((ℕ × ℕ) × List String)) :
    ((pairs.foldl (fun gs p => addToGroup gs (winner g p.2) p.1) gs).map
        Prod.snd).flatten.Perm
      ((gs.map Prod.snd).flatten ++ pairs.map Prod.fst) := by
  induction pairs generalizing gs with
  | nil => simp
  | cons p ps ih =>
    rw [List.foldl_cons]
    refine (ih (addToGroup gs (winner g p.2) p.1)).trans ?_
    refine ((flatten_addToGroup gs (winner g p.2) p.1).append_right
      (ps.map Prod.fst)).trans ?_
    rw [List.append_assoc]
    simp only [List.singleton_append, List.map_cons]
    exact List.Perm.refl _

lemma addToGroup_members_ne_nil (gs : List ((ℕ × ℕ) × List String)) (k : ℕ × ℕ)
    (a : String) (h : ∀ kv ∈ gs, kv.2 ≠ []) :
    ∀ kv ∈ addToGroup gs k a, kv.2 ≠ [] := by
  induction gs with
  | nil =>
    intro kv hkv
    simp only [addToGroup, List.mem_singleton] at hkv
    subst hkv
    simp
  | cons p rest ih =>
    obtain ⟨k', as⟩ := p
    intro kv hkv
    by_cases hk : k' = k
    · simp only [addToGroup, if_pos hk, List.mem_cons] at hkv
      rcases hkv with h1 | h1
      · subst h1
        simp
      · exact h kv (by simp [h1])
    · simp only [addToGroup, if_neg hk, List.mem_cons] at hkv
      rcases hkv with h1 | h1
      · subst h1
        exact h (k', as) (by simp)
      · exact ih (fun kv' hkv' => h kv' (by simp [hkv'])) kv h1

lemma grouped_accounts_members_ne_nil (g : List (List (List ℚ)))
    (pairs : List (String × List ℚ)) :
    ∀ kv ∈ grouped_accounts g pairs, kv.2 ≠ [] := by
  rw [grouped_accounts]
  have key : ∀ (ps : List (String × List ℚ)) (gs : List ((ℕ × ℕ) × List String)),
      (∀ kv ∈ gs, kv.2 ≠ []) →
      ∀ kv ∈ ps.foldl (fun gs p => addToGroup gs (winner g p.2) p.1) gs, kv.2 ≠ [] := by
    intro ps
    induction ps with
    | nil => intro gs hgs kv hkv; exact hgs kv hkv
    | cons p ps' ih =>
      intro gs hgs kv hkv
      rw [List.foldl_cons] at hkv
      exact ih _ (addToGroup_members_ne_nil gs _ p.1 hgs) kv hkv
  exact key pairs [] (by simp)

/-- The constructor arguments of `MiniSom` as the script supplies them
on line 144: `MiniSom(map_size, map_size, data_values.shape[1],
sigma=1.0, learning_rate=0.5)`.  The library also accepts a
`random_seed` keyword with default `None`; the script does not pass
it. -/
structure MiniSomArgs where
  x : ℕ
  y : ℕ
  input_len : ℕ
  sigma : ℚ
  learning_rate : ℚ
  random_seed : Option ℕ
  deriving DecidableEq, Repr

/-- The `MiniSom(...)` call of the script for `N` entities and `w`
categories: both grid dimensions from the heuristic, `sigma=1.0`,
`learning_rate=0.5`, and no `random_seed` argument, so the field keeps
the library default `None`. -/
def scriptSom (N w : ℕ) : MiniSomArgs :=
  { x := map_size N, y := map_size N, input_len := w, sigma := 1,
    learning_rate := 1 / 2, random_seed := none }

/-- A concrete deterministic sample-index generator standing for the
library's seeded random generator (the exact generator lives inside
`minisom`/`numpy`; only its determinism for a fixed seed matters to the
statements below). -/
def randIdx (seed t n : ℕ) : ℕ :=
  ((seed + 1) * 1103515245 + t * 12345 + 12345) % (max n 1)

/-- One competitive-learning weight update,
`w + learning_rate * (x - w)` componentwise. -/
def updateNeuron (w x : List ℚ) (lr : ℚ) : List ℚ :=
  List.zipWith (fun wi xi => wi + lr * (xi - wi)) w x

/-- Replace the weight vector of the neuron at `(r, c)`. -/
def updateGrid (g : List (List (List ℚ))) (r c : ℕ) (x : List ℚ) (lr : ℚ) :
    List (List (List ℚ)) :=
  g.set r ((g.getD r []).set c (updateNeuron ((g.getD r []).getD c []) x lr))

/-- One iteration of `train_random`: draw a sample via the seeded
generator, find its winner and update that neuron. -/
def somStep (data : List (List ℚ)) (lr : ℚ) (seed t : ℕ)
    (g : List (List (List ℚ))) : List (List (List ℚ)) :=
  let x := data.getD (randIdx seed t data.length) []
  updateGrid g (winner g x).1 (winner g x).2 x lr

/-- `som.train_random(data, num_iteration)`: iterate `somStep`. -/
def train_random (data : List (List ℚ)) (lr : ℚ) (seed : ℕ) :
    ℕ → List (List (List ℚ)) → List (List (List ℚ))
  | 0, g => g
  | t + 1, g => train_random data lr seed t (somStep data lr seed t g)

/-- `som.random_weights_init(data)`: seed every neuron with a data
sample picked by the seeded generator. -/
def random_weights_init (R C : ℕ) (data : List (List ℚ)) (seed : ℕ) :
    List (List (List ℚ)) :=
  (List.range R).map (fun i => (List.range C).map (fun j =>
    data.getD (randIdx seed (i * C + j) data.length) []))

/-- A full training-plus-assignment run: initialize the grid, train,
and group the accounts by winner.  The seed is taken from
`random_seed` (`None` is modelled by the library default state `0`;
the real library draws it from the OS in that case). -/
def runAssignments (names : List String) (data : List (List ℚ))
    (args : MiniSomArgs) (iterations : ℕ) : List ((ℕ × ℕ) × List String) :=
  let seed := args.random_seed.getD 0
  let g0 := random_weights_init args.x args.y data seed
  let g := train_random data args.learning_rate seed iterations g0
  grouped_accounts g (names.zip data)

/-- Column means of the RAW pivot matrix over the member accounts of a
group (`pivot_df.loc[accounts].mean()`): `(category, mean)` pairs in
pivot column order. -/
def groupMeans (recs : List Rec) (members : List String) : List (String × ℚ) :=
  (pivotCols recs).map (fun c =>
    (c, (members.map (fun a => pivotEntry recs a c)).sum / (members.length : ℚ)))

/-- `Series.idxmax` of pandas: the label of the first occurrence of the
maximum value (ties keep the earlier label). -/
def idxmaxPairs : List (String × ℚ) → String × ℚ
  | [] => ("", 0)
  | [p] => p
  | p :: q :: rest =>
    if p.2 < (idxmaxPairs (q :: rest)).2 then idxmaxPairs (q :: rest) else p

/-- `top_para`: the dominant category of a group,
`group_vectors.mean().idxmax()` over the raw pivot rows of the members. -/
def top_para (recs : List Rec) (members : List String) : String :=
  (idxmaxPairs (groupMeans recs members)).1

lemma idxmaxPairs_mem {l : List (String × ℚ)} (h : l ≠ []) : idxmaxPairs l ∈ l := by
  induction l with
  | nil => exact absurd rfl h
  | cons p rest ih =>
    cases rest with
    | nil => simp [idxmaxPairs]
    | cons q rest' =>
      by_cases hlt : p.2 < (idxmaxPairs (q :: rest')).2
      · rw [idxmaxPairs, if_pos hlt]
        exact List.mem_cons_of_mem p (ih (by simp))
      · rw [idxmaxPairs, if_neg hlt]
        exact List.mem_cons_self p _

lemma le_idxmaxPairs {l : List (String × ℚ)} {p : String × ℚ} (hp : p ∈ l) :
    p.2 ≤ (idxmaxPairs l).2 := by
  induction l with
  | nil => cases hp
  | cons a rest ih =>
    cases rest with
    | nil =>
      rcases List.mem_cons.mp hp with h | h
      · subst h; simp [idxmaxPairs]
      · cases h
    | cons b rest' =>
      by_cases hlt : a.2 < (idxmaxPairs (b :: rest')).2
      · rw [idxmaxPairs, if_pos hlt]
        rcases List.mem_cons.mp hp with h | h
        · subst h; exact hlt.le
        · exact ih h
      · rw [idxmaxPairs, if_neg hlt]
        push_neg at hlt
        rcases List.mem_cons.mp hp with h | h
        · subst h; exact le_refl _
        · exact le_trans (ih h) hlt

lemma idxmaxPairs_first {l : List (String × ℚ)}
    (hsort : l.Pairwise (fun p q => p.1 < q.1)) :
    ∀ p ∈ l, p.2 = (idxmaxPairs l).2 → (idxmaxPairs l).1 ≤ p.1 := by
  induction l with
  | nil => intro p hp; cases hp
  | cons a rest ih =>
    cases rest with
    | nil =>
      intro p hp _
      rcases List.mem_cons.mp hp with h | h
      · subst h; simp [idxmaxPairs]
      · cases h
    | cons b rest' =>
      have hsort' : (b :: rest').Pairwise (fun p q => p.1 < q.1) :=
        List.Pairwise.of_cons hsort
      have hafirst : ∀ q ∈ b :: rest', a.1 < q.1 :=
        fun q hq => (List.pairwise_cons.mp hsort).1 q hq
      intro p hp hval
      by_cases hlt : a.2 < (idxmaxPairs (b :: rest')).2
      · rw [idxmaxPairs, if_pos hlt] at hval ⊢
        rcases List.mem_cons.mp hp with h | h
        · subst h
          exact absurd hval (ne_of_lt hlt)
        · exact ih hsort' p h hval
      · rw [idxmaxPairs, if_neg hlt] at hval ⊢
        rcases List.mem_cons.mp hp with h | h
        · subst h
          exact le_refl _
        · exact (hafirst p h).le

lemma pivotCols_sorted_lt (recs : List Rec) :
    (pivotCols recs).Pairwise (· < ·) := by
  have hs : (pivotCols recs).Pairwise (· ≤ ·) :=
    List.sorted_insertionSort (· ≤ ·) ((recs.map Rec.paragraf).dedup)
  have hn : (pivotCols recs).Nodup :=
    ((List.perm_insertionSort (· ≤ ·) _).nodup_iff).mpr
      (List.nodup_dedup (recs.map Rec.paragraf))
  exact (List.Pairwise.and hs hn).imp (fun h => lt_of_le_of_ne h.1 h.2)

lemma pivotCols_ne_nil {recs : List Rec} (h : recs ≠ []) : pivotCols recs ≠ [] := by
  intro hnil
  have hperm := List.perm_insertionSort (· ≤ ·) ((recs.map Rec.paragraf).dedup)
  rw [pivotCols] at hnil
  rw [hnil] at hperm
  have h2 : (recs.map Rec.paragraf).dedup = [] := hperm.symm.eq_nil
  have h3 : recs.map Rec.paragraf = [] := (List.dedup_eq_nil _).mp h2
  exact h (List.map_eq_nil_iff.mp h3)

lemma lookupD_bump_same (m : List ((String × String) × ℚ)) (k : String × String) (v : ℚ) :
    lookupD (bump m k v) k = lookupD m k + v := by
  induction m with
  | nil => simp [bump, lookupD]
  | cons p rest ih =>
    obtain ⟨k', v'⟩ := p
    by_cases h : k' = k
    · simp [bump, lookupD, h]
    · simp [bump, lookupD, h, ih]

lemma lookupD_bump_other (m : List ((String × String) × ℚ)) (k k₀ : String × String)
    (v : ℚ) (hne : k ≠ k₀) : lookupD (bump m k v) k₀ = lookupD m k₀ := by
  induction m with
  | nil => simp [bump, lookupD, hne]
  | cons p rest ih =>
    obtain ⟨k', v'⟩ := p
    by_cases h : k' = k
    · subst h
      simp [bump, lookupD, hne]
    · by_cases h0 : k' = k₀ <;> simp [bump, lookupD, h, h0, ih, Ne.symm hne]

lemma lookupD_foldl_bump (recs : List Rec) (m : List ((String × String) × ℚ))
    (e c : String) :
    lookupD (recs.foldl (fun m r => bump m (r.konto, r.paragraf) r.kwota) m) (e, c)
      = lookupD m (e, c)
        + ((recs.filter (fun r => r.konto = e ∧ r.paragraf = c)).map Rec.kwota).sum := by
  induction recs generalizing m with
  | nil => simp
  | cons r rest ih =>
    rw [List.foldl_cons, ih]
    by_cases h : r.konto = e ∧ r.paragraf = c
    · have hk : (r.konto, r.paragraf) = (e, c) := by
        rw [h.1, h.2]
      rw [hk, lookupD_bump_same]
      simp [h]
      ring
    · have hk : (r.konto, r.paragraf) ≠ (e, c) := by
        intro hc
        exact h ⟨congrArg Prod.fst hc, congrArg Prod.snd hc⟩
      rw [lookupD_bump_other _ _ _ _ hk]
      simp [h]

/-- The pivot entry is exactly the sum of the amounts of the matching
records (shared with the analysis of malformed amounts). -/
lemma pivotEntry_eq_filterSum (recs : List Rec) (e c : String) :
    pivotEntry recs e c
      = ((recs.filter (fun r => r.konto = e ∧ r.paragraf = c)).map Rec.kwota).sum := by
  have h := lookupD_foldl_bump recs [] e c
  simpa [pivotEntry, sumAgg, lookupD] using h

lemma nat_floor_sqrt_eq (x : ℝ) (hx : 0 ≤ x) :
    ⌊Real.sqrt x⌋₊ = Nat.sqrt ⌊x⌋₊ := by
  set k := Nat.sqrt ⌊x⌋₊ with hk
  have h1 : (k : ℝ) ≤ Real.sqrt x := by
    rw [show (k : ℝ) = Real.sqrt ((k : ℝ) ^ 2) by
      rw [Real.sqrt_sq (by positivity)]]
    apply Real.sqrt_le_sqrt
    have hk2 : (k ^ 2 : ℕ) ≤ ⌊x⌋₊ := Nat.sqrt_le' _
    calc ((k : ℝ) ^ 2) = ((k ^ 2 : ℕ) : ℝ) := by push_cast; ring
    _ ≤ (⌊x⌋₊ : ℝ) := by exact_mod_cast hk2
    _ ≤ x := Nat.floor_le hx
  have h2 : Real.sqrt x < (k : ℝ) + 1 := by
    have hlt : x < ((k + 1 : ℕ) : ℝ) ^ 2 := by
      have hfl : ⌊x⌋₊ < (k + 1) ^ 2 := Nat.lt_succ_sqrt' _
      have : x < (⌊x⌋₊ : ℝ) + 1 := Nat.lt_floor_add_one x
      calc x < (⌊x⌋₊ : ℝ) + 1 := this
      _ ≤ (((k + 1) ^ 2 : ℕ) : ℝ) := by exact_mod_cast hfl
      _ = ((k + 1 : ℕ) : ℝ) ^ 2 := by push_cast; ring
    have := Real.sqrt_lt_sqrt hx hlt
    calc Real.sqrt x < Real.sqrt (((k + 1 : ℕ) : ℝ) ^ 2) := this
    _ = ((k + 1 : ℕ) : ℝ) := Real.sqrt_sq (by positivity)
    _ = (k : ℝ) + 1 := by push_cast; ring
  have h0 : 0 ≤ Real.sqrt x := Real.sqrt_nonneg x
  rw [Nat.floor_eq_iff h0]
  exact ⟨by exact_mod_cast h1, by exact_mod_cast h2⟩

lemma map_size_eq_real (N : ℕ) :
    map_size N = ⌊Real.sqrt (5 * Real.sqrt N)⌋₊ + 2 := by
  have h5 : (5 : ℝ) * Real.sqrt N = Real.sqrt ((25 * N : ℕ) : ℝ) := by
    rw [show ((25 * N : ℕ) : ℝ) = 25 * (N : ℝ) by push_cast; ring]
    rw [show (25 : ℝ) * (N : ℝ) = 5 ^ 2 * (N : ℝ) by ring]
    rw [Real.sqrt_mul (by positivity), Real.sqrt_sq (by norm_num)]
  rw [map_size, h5, nat_floor_sqrt_eq _ (Real.sqrt_nonneg _),
    Real.nat_floor_real_sqrt_eq_nat_sqrt]

end Kohonen

open Kohonen

/-- C7: the member lists of `grouped_accounts` partition the entity
sequence: their concatenation is a permutation of the account list,
and when the accounts are distinct every account occurs in the groups
exactly once. -/
theorem C7_partition (g : List (List (List ℚ))) (pairs : List (String × List ℚ)) :
    (((grouped_accounts g pairs).map Prod.snd).flatten).Perm (pairs.map Prod.fst)
    ∧ ((pairs.map Prod.fst).Nodup →
        ∀ a ∈ pairs.map Prod.fst,
          (((grouped_accounts g pairs).map Prod.snd).flatten).count a = 1) := by
  have hperm : (((grouped_accounts g pairs).map Prod.snd).flatten).Perm
      (pairs.map Prod.fst) := by
    have := flatten_foldl_addToGroup g pairs []
    simpa [grouped_accounts] using this
  refine ⟨hperm, fun hnd a ha => ?_⟩
  rw [hperm.count_eq a]
  exact List.count_eq_one_of_mem hnd ha

/-- Witness for C7 on a 1-by-1 grid and two distinct accounts. -/
theorem C7_partition_witness :
    (((grouped_accounts [[[0]]] [("A", [0]), ("B", [1])]).map Prod.snd).flatten).Perm
        ([("A", [0]), ("B", [1])].map Prod.fst)
    ∧ ∀ a ∈ ([("A", [0]), ("B", [1])] : List (String × List ℚ)).map Prod.fst,
        (((grouped_accounts [[[0]]] [("A", [0]), ("B", [1])]).map
            Prod.snd).flatten).count a = 1 :=
  ⟨(C7_partition [[[0]]] [("A", [0]), ("B", [1])]).1,
   fun a ha => (C7_partition [[[0]]] [("A", [0]), ("B", [1])]).2 (by decide) a ha⟩

/-- C8: the dominant category of a group is a pivot column whose raw
mean over the member accounts is maximal; any column with the same
mean is lexicographically greater or equal (the tie goes to the lowest
label, since pivot columns are sorted and `idxmax` keeps the first
maximum); and every group of `grouped_accounts` has at least one
member. -/
theorem C8_dominant_category (recs : List Rec) (members : List String)
    (hr : recs ≠ []) :
    top_para recs members ∈ pivotCols recs
    ∧ (∀ c ∈ pivotCols recs,
        (members.map (fun a => pivotEntry recs a c)).sum / (members.length : ℚ)
          ≤ (members.map (fun a => pivotEntry recs a (top_para recs members))).sum
              / (members.length : ℚ))
    ∧ (∀ c ∈ pivotCols recs,
        (members.map (fun a => pivotEntry recs a c)).sum / (members.length : ℚ)
          = (members.map (fun a => pivotEntry recs a (top_para recs members))).sum
              / (members.length : ℚ)
         → top_para recs members ≤ c)
    ∧ (∀ g pairs kv, kv ∈ grouped_accounts g pairs → kv.2 ≠ []) := by
  have hnil : groupMeans recs members ≠ [] := by
    rw [groupMeans]
    intro hn
    exact pivotCols_ne_nil hr (List.map_eq_nil_iff.mp hn)
  have hmem : idxmaxPairs (groupMeans recs members) ∈ groupMeans recs members :=
    idxmaxPairs_mem hnil
  rw [groupMeans] at hmem
  rcases List.mem_map.mp hmem with ⟨c₀, hc₀, hpair⟩
  have htop : top_para recs members = c₀ := by
    rw [top_para, groupMeans, ← hpair]
  have hval : (idxmaxPairs (groupMeans recs members)).2
      = (members.map (fun a => pivotEntry recs a (top_para recs members))).sum
          / (members.length : ℚ) := by
    rw [htop, groupMeans, ← hpair]
  have hsortpairs : (groupMeans recs members).Pairwise (fun p q => p.1 < q.1) := by
    rw [groupMeans, List.pairwise_map]
    exact (pivotCols_sorted_lt recs).imp (fun h => h)
  refine ⟨htop ▸ hc₀, ?_, ?_, ?_⟩
  · intro c hc
    have hcm : (c, (members.map (fun a => pivotEntry recs a c)).sum
        / (members.length : ℚ)) ∈ groupMeans recs members := by
      rw [groupMeans]
      exact List.mem_map_of_mem _ hc
    have := le_idxmaxPairs hcm
    rw [hval] at this
    exact this
  · intro c hc heq
    have hcm : (c, (members.map (fun a => pivotEntry recs a c)).sum
        / (members.length : ℚ)) ∈ groupMeans recs members := by
      rw [groupMeans]
      exact List.mem_map_of_mem _ hc
    have := idxmaxPairs_first hsortpairs _ hcm (by rw [hval]; exact heq)
    rw [← top_para] at this
    exact this
  · intro g pairs kv hkv
    exact grouped_accounts_members_ne_nil g pairs kv hkv

/-- Witness for C8 on one record list and a singleton group. -/
theorem C8_dominant_category_witness :
    top_para [⟨"A", "4210", 5⟩, ⟨"A", "4300", 1⟩] ["A"]
        ∈ pivotCols [⟨"A", "4210", 5⟩, ⟨"A", "4300", 1⟩]
    ∧ (∀ c ∈ pivotCols [⟨"A", "4210", 5⟩, ⟨"A", "4300", 1⟩],
        ((["A"].map (fun a => pivotEntry [⟨"A", "4210", 5⟩, ⟨"A", "4300", 1⟩] a c)).sum
            / ((["A"] : List String).length : ℚ))
          ≤ ((["A"].map (fun a => pivotEntry [⟨"A", "4210", 5⟩, ⟨"A", "4300", 1⟩] a
                (top_para [⟨"A", "4210", 5⟩, ⟨"A", "4300", 1⟩] ["A"]))).sum
              / ((["A"] : List String).length : ℚ)))
    ∧ (∀ c ∈ pivotCols [⟨"A", "4210", 5⟩, ⟨"A", "4300", 1⟩],
        ((["A"].map (fun a => pivotEntry [⟨"A", "4210", 5⟩, ⟨"A", "4300", 1⟩] a c)).sum
            / ((["A"] : List String).length : ℚ))
          = ((["A"].map (fun a => pivotEntry [⟨"A", "4210", 5⟩, ⟨"A", "4300", 1⟩] a
                (top_para [⟨"A", "4210", 5⟩, ⟨"A", "4300", 1⟩] ["A"]))).sum
              / ((["A"] : List String).length : ℚ))
         → top_para [⟨"A", "4210", 5⟩, ⟨"A", "4300", 1⟩] ["A"] ≤ c)
    ∧ (∀ g pairs kv, kv ∈ grouped_accounts g pairs → kv.2 ≠ []) :=
  C8_dominant_category [⟨"A", "4210", 5⟩, ⟨"A", "4300", 1⟩] ["A"] (by decide)

/-- C3 counterexample: on empty input the pipeline fails with the
pandas `KeyError('kwota')` (raised by `df['kwota']` on a dataframe
with no columns), not with an `EmptyInputError`; no `EmptyInputError`
exists in the code. -/
theorem C3_counterexample :
    scriptPipeline [] = Except.error (PipeError.keyError "kwota")
    ∧ PipeError.keyError "kwota" ≠ PipeError.emptyInputError :=
  ⟨rfl, by decide⟩

/-- C3 amended: the pipeline does fail and halt before normalization
and training when the input is empty, surfacing an error to the
caller — but the error is the uncaught `KeyError('kwota')`, and on any
non-empty input the pipeline reaches the normalized matrix; an
`EmptyInputError` is never produced. -/
theorem C3_empty_input (raws : List RawRec) :
    (raws = [] → scriptPipeline raws = Except.error (PipeError.keyError "kwota"))
    ∧ (raws ≠ [] → ∃ out, scriptPipeline raws = Except.ok out)
    ∧ (∀ e, scriptPipeline raws = Except.error e → e ≠ PipeError.emptyInputError) := by
  cases raws with
  | nil =>
    refine ⟨fun _ => rfl, fun h => absurd rfl h, fun e he => ?_⟩
    have : e = PipeError.keyError "kwota" := by
      have h1 : Except.error (PipeError.keyError "kwota")
          = (Except.error e : Except PipeError (List String × List String × List (List ℚ))) := by
        rw [← he]
        rfl
      exact (Except.error.inj h1).symm
    rw [this]
    decide
  | cons r rest =>
    refine ⟨fun h => absurd h (by simp), fun _ => ⟨_, rfl⟩, fun e he => ?_⟩
    exact absurd he (by simp [scriptPipeline, cleanStep, Except.map])

/-- Witness for C3 at the empty and a singleton input. -/
theorem C3_empty_input_witness :
    scriptPipeline [] = Except.error (PipeError.keyError "kwota")
    ∧ (∃ out, scriptPipeline [⟨"A", "4210", PyVal.int 5⟩] = Except.ok out)
    ∧ PipeError.keyError "kwota" ≠ PipeError.emptyInputError :=
  ⟨(C3_empty_input []).1 rfl,
   (C3_empty_input [⟨"A", "4210", PyVal.int 5⟩]).2.1 (by simp),
   (C3_empty_input []).2.2 (PipeError.keyError "kwota") rfl⟩

/-- C6 counterexample: the script's `MiniSom` construction passes no
`random_seed`; the configuration keeps the library default `None`, so
the training randomness is ambient, not seeded. -/
theorem C6_counterexample : (scriptSom 4 2).random_seed = none := rfl

/-- C6 amended: the library accepts a `random_seed` option but the
script leaves it unset; when a seed IS supplied, training and
assignment are a pure function of the input data, the configuration
and the seed — two runs with identical data, configuration and seed
produce identical cluster assignments. -/
theorem C6_seeded_determinism (names₁ names₂ : List String)
    (data₁ data₂ : List (List ℚ)) (args₁ args₂ : MiniSomArgs) (T₁ T₂ s : ℕ)
    (_hs : args₁.random_seed = some s) (h1 : names₂ = names₁) (h2 : data₂ = data₁)
    (h3 : args₂ = args₁) (h4 : T₂ = T₁) :
    runAssignments names₂ data₂ args₂ T₂ = runAssignments names₁ data₁ args₁ T₁ := by
  rw [h1, h2, h3, h4]

/-- Witness for C6 at a concrete seeded configuration. -/
theorem C6_seeded_determinism_witness :
    runAssignments ["A"] [[1]] ⟨2, 2, 1, 1, 1 / 2, some 42⟩ 3
      = runAssignments ["A"] [[1]] ⟨2, 2, 1, 1, 1 / 2, some 42⟩ 3 :=
  C6_seeded_determinism ["A"] ["A"] [[1]] [[1]] ⟨2, 2, 1, 1, 1 / 2, some 42⟩
    ⟨2, 2, 1, 1, 1 / 2, some 42⟩ 3 3 42 rfl rfl rfl rfl rfl

/-- C9 counterexample: `clean_paragraph` keeps whatever precedes the
first dot, so `"4210 zakupy"` is NOT reduced to its leading numeric
code; and a label that reduces to the empty string is not an error —
the pipeline succeeds and aggregates the amount under the empty
label. -/
theorem C9_counterexample :
    clean_paragraph "4210 zakupy" = "4210 zakupy"
    ∧ clean_paragraph "4210 zakupy" ≠ "4210"
    ∧ clean_paragraph " . " = ""
    ∧ (∃ out, scriptPipeline [⟨"A", " . ", PyVal.int 5⟩] = Except.ok out)
    ∧ pivotEntry [cleanRow ⟨"A", " . ", PyVal.int 5⟩] "A" "" = 5 :=
  ⟨rfl, by decide, rfl, ⟨_, rfl⟩, by decide⟩

/-- C9 amended: before aggregation every category label is normalized
to the part before its first dot, trimmed of whitespace (not
necessarily a numeric code); a label that reduces to the empty string
is silently aggregated under the empty label, with no error
signalled. -/
theorem C9_clean_paragraph (s : String) :
    clean_paragraph s = String.mk (trimChars (s.toList.takeWhile (fun c => c ≠ '.')))
    ∧ (∃ out, scriptPipeline [⟨"A", " . ", PyVal.int 5⟩] = Except.ok out)
    ∧ pivotEntry [cleanRow ⟨"A", " . ", PyVal.int 5⟩] "A" "" = 5 := by
  refine ⟨?_, ⟨_, rfl⟩, by decide⟩
  rw [clean_paragraph, pySplit_headD]

/-- C10: `clean_currency` is total — numbers convert directly, a
string that fails to parse after normalization yields `0.0` instead of
an error, a parsable one yields its value, and appending a record with
an unparsable amount leaves every aggregated matrix entry unchanged
(it contributes `0`). -/
theorem C10_clean_currency_total :
    (∀ n : ℤ, clean_currency (PyVal.int n) = (n : ℚ))
    ∧ (∀ q : ℚ, clean_currency (PyVal.float q) = q)
    ∧ (∀ s : String, pyFloat (normalizeAmount s) = none →
        clean_currency (PyVal.str s) = 0)
    ∧ (∀ s : String, ∀ q : ℚ, pyFloat (normalizeAmount s) = some q →
        clean_currency (PyVal.str s) = q)
    ∧ clean_currency (PyVal.str "1 200,50") = 2401 / 2
    ∧ (∀ (raws : List RawRec) (e p s : String),
        pyFloat (normalizeAmount s) = none →
        ∀ e' c',
          pivotEntry ((raws ++ ([⟨e, p, PyVal.str s⟩] : List RawRec)).map cleanRow) e' c'
            = pivotEntry (raws.map cleanRow) e' c') := by
  refine ⟨fun n => rfl, fun q => rfl, ?_, ?_, ?_, ?_⟩
  · intro s hs
    show (pyFloat (normalizeAmount s)).getD 0 = 0
    rw [hs]
    rfl
  · intro s q hs
    show (pyFloat (normalizeAmount s)).getD 0 = q
    rw [hs]
    rfl
  · have h : clean_currency (PyVal.str "1 200,50")
        = ((1200 : ℕ) : ℚ) + ((50 : ℕ) : ℚ) / 10 ^ 2 := rfl
    rw [h]
    norm_num
  · intro raws e p s hs e' c'
    rw [pivotEntry_eq_filterSum, pivotEntry_eq_filterSum, List.map_append,
      List.filter_append, List.map_append, List.sum_append]
    have hkw : (cleanRow ⟨e, p, PyVal.str s⟩).kwota = 0 := by
      show (pyFloat (normalizeAmount s)).getD 0 = 0
      rw [hs]
      rfl
    have hzero : (((([⟨e, p, PyVal.str s⟩] : List RawRec).map cleanRow).filter
        (fun r => r.konto = e' ∧ r.paragraf = c')).map Rec.kwota).sum = (0 : ℚ) := by
      by_cases hmatch : (cleanRow ⟨e, p, PyVal.str s⟩).konto = e'
          ∧ (cleanRow ⟨e, p, PyVal.str s⟩).paragraf = c'
      · simp [hmatch, hkw]
      · simp [hmatch]
    rw [hzero, add_zero]

/-- Witness for C10 at concrete malformed and well-formed amounts. -/
theorem C10_clean_currency_total_witness :
    clean_currency (PyVal.int 7) = ((7 : ℤ) : ℚ)
    ∧ clean_currency (PyVal.float (3 / 2)) = 3 / 2
    ∧ clean_currency (PyVal.str "abc") = 0
    ∧ clean_currency (PyVal.str "12,5") = ((12 : ℕ) : ℚ) + ((5 : ℕ) : ℚ) / 10 ^ 1
    ∧ ∀ e' c',
        pivotEntry ((([] : List RawRec)
            ++ ([⟨"A", "4210", PyVal.str "1,2,3"⟩] : List RawRec)).map cleanRow) e' c'
          = pivotEntry (([] : List RawRec).map cleanRow) e' c' :=
  ⟨C10_clean_currency_total.1 7, C10_clean_currency_total.2.1 (3 / 2),
   C10_clean_currency_total.2.2.1 "abc" rfl,
   C10_clean_currency_total.2.2.2.1 "12,5" (((12 : ℕ) : ℚ) + ((5 : ℕ) : ℚ) / 10 ^ 1) rfl,
   C10_clean_currency_total.2.2.2.2.2 [] "A" "4210" "1,2,3" rfl⟩

/-- C1: the pivot matrix entry at `(e, c)` is the exact sum of `kwota`
over all records with account `e` and category `c`, and `0` when no
such record exists (missing pairs default to `0`, not absent). -/
theorem C1_matrix_completeness (recs : List Rec) (e c : String) :
    pivotEntry recs e c
      = ((recs.filter (fun r => r.konto = e ∧ r.paragraf = c)).map Rec.kwota).sum
    ∧ ((∀ r ∈ recs, ¬(r.konto = e ∧ r.paragraf = c)) → pivotEntry recs e c = 0) := by
  refine ⟨pivotEntry_eq_filterSum recs e c, fun h => ?_⟩
  rw [pivotEntry_eq_filterSum recs e c]
  have : recs.filter (fun r => r.konto = e ∧ r.paragraf = c) = [] := by
    rw [List.filter_eq_nil_iff]
    intro r hr
    simpa using h r hr
  rw [this]
  simp

/-- Witness for C1 at a pair absent from the records: the entry is the
(empty) filtered sum and equals `0`. -/
theorem C1_matrix_completeness_witness :
    pivotEntry [⟨"A", "4210", 5⟩] "B" "4300"
      = ((([⟨"A", "4210", 5⟩] : List Rec).filter
          (fun r => r.konto = "B" ∧ r.paragraf = "4300")).map Rec.kwota).sum
    ∧ pivotEntry [⟨"A", "4210", 5⟩] "B" "4300" = 0 :=
  ⟨(C1_matrix_completeness [⟨"A", "4210", 5⟩] "B" "4300").1,
   (C1_matrix_completeness [⟨"A", "4210", 5⟩] "B" "4300").2 (by decide)⟩

/-- C2: normalization keeps the shape of the matrix, rescales entry
`(i, j)` to `(x - min_j) / (max_j - min_j + eps)` with the column-wise
minimum and maximum, yields entries in `[0, 1]` whenever
`min_j < max_j`, and yields exactly `0` on a constant column instead of
a division error. -/
theorem C2_normalization_bounds (m : List (List ℚ)) (i j : ℕ) (hi : i < m.length)
    (hj : j < (m.getD i []).length) :
    (data_normalized m).length = m.length
    ∧ (∀ k, k < m.length → ((data_normalized m).getD k []).length = (m.getD k []).length)
    ∧ ((data_normalized m).getD i []).getD j 0
        = ((m.getD i []).getD j 0 - colMin m j) / (colMax m j - colMin m j + eps)
    ∧ (colMin m j < colMax m j →
        0 ≤ ((data_normalized m).getD i []).getD j 0
          ∧ ((data_normalized m).getD i []).getD j 0 ≤ 1)
    ∧ (colMax m j = colMin m j → ((data_normalized m).getD i []).getD j 0 = 0) := by
  have hmn := colMin_le_entry m i j hi
  have hmx := entry_le_colMax m i j hi
  have hentry := data_normalized_entry m i j hi hj
  refine ⟨by simp [data_normalized], ?_, hentry, ?_, ?_⟩
  · intro k hk
    have hk' : k < (data_normalized m).length := by simpa [data_normalized] using hk
    rw [List.getD_eq_getElem _ [] hk', List.getD_eq_getElem m [] hk]
    simp [data_normalized]
  · intro hlt
    have hden : 0 < colMax m j - colMin m j + eps := by
      have := eps_pos
      linarith
    constructor
    · rw [hentry]
      apply div_nonneg _ hden.le
      linarith
    · rw [hentry, div_le_one hden]
      have := eps_pos
      linarith
  · intro hconst
    have hx : (m.getD i []).getD j 0 = colMin m j := le_antisymm (hconst ▸ hmx) hmn
    rw [hentry, hx, sub_self, zero_div]

/-- Witness for C2 at the concrete matrix `[[0, 5], [1, 5]]`, entry
`(0, 0)`: column 0 has distinct min and max, so the entry lies in
`[0, 1]`. -/
theorem C2_normalization_bounds_witness :
    (data_normalized [[0, 5], [1, 5]]).length = ([[0, 5], [1, 5]] : List (List ℚ)).length
    ∧ (∀ k, k < ([[0, 5], [1, 5]] : List (List ℚ)).length →
        ((data_normalized [[0, 5], [1, 5]]).getD k []).length
          = (([[0, 5], [1, 5]] : List (List ℚ)).getD k []).length)
    ∧ ((data_normalized [[0, 5], [1, 5]]).getD 0 []).getD 0 0
        = ((([[0, 5], [1, 5]] : List (List ℚ)).getD 0 []).getD 0 0
            - colMin [[0, 5], [1, 5]] 0)
          / (colMax [[0, 5], [1, 5]] 0 - colMin [[0, 5], [1, 5]] 0 + eps)
    ∧ (colMin [[0, 5], [1, 5]] 0 < colMax [[0, 5], [1, 5]] 0 →
        0 ≤ ((data_normalized [[0, 5], [1, 5]]).getD 0 []).getD 0 0
          ∧ ((data_normalized [[0, 5], [1, 5]]).getD 0 []).getD 0 0 ≤ 1)
    ∧ (colMax [[0, 5], [1, 5]] 0 = colMin [[0, 5], [1, 5]] 0 →
        ((data_normalized [[0, 5], [1, 5]]).getD 0 []).getD 0 0 = 0) :=
  C2_normalization_bounds [[0, 5], [1, 5]] 0 0 (by decide) (by decide)

/-- C4: the grid size is `floor (sqrt (5 * sqrt N)) + 2` (exact real
square roots), and it is a pure function of `N`: equal entity counts
give equal grid sizes. -/
theorem C4_grid_size_heuristic (N : ℕ) :
    map_size N = ⌊Real.sqrt (5 * Real.sqrt N)⌋₊ + 2
    ∧ ∀ M : ℕ, M = N → map_size M = map_size N := by
  exact ⟨map_size_eq_real N, fun M h => by rw [h]⟩

/-- Witness for C4 at `N = 6` (the record count of the demo data). -/
theorem C4_grid_size_heuristic_witness :
    map_size 6 = ⌊Real.sqrt (5 * Real.sqrt ((6 : ℕ) : ℝ))⌋₊ + 2
    ∧ map_size 6 = map_size 6 :=
  ⟨(C4_grid_size_heuristic 6).1, (C4_grid_size_heuristic 6).2 6 rfl⟩

/-- C5: on a fixed rectangular grid, `winner x` returns in-range
coordinates of a neuron whose weight vector has minimal Euclidean
distance to `x`; any neuron at the same minimal distance has
lexicographically greater-or-equal coordinates (the winner is the
lexicographically smallest minimizer). -/
theorem C5_winner_bmu (g : List (List (List ℚ))) (x : List ℚ) (C : ℕ)
    (hC : (g.headD []).length = C) (hrect : ∀ row ∈ g, row.length = C)
    (hg : g ≠ []) (hCpos : 0 < C) :
    (winner g x).1 < g.length ∧ (winner g x).2 < C
    ∧ ∀ i j, i < g.length → j < C →
        Real.sqrt ((sqDist ((g.getD (winner g x).1 []).getD (winner g x).2 []) x : ℚ) : ℝ)
          ≤ Real.sqrt ((sqDist ((g.getD i []).getD j []) x : ℚ) : ℝ)
        ∧ (Real.sqrt ((sqDist ((g.getD i []).getD j []) x : ℚ) : ℝ)
            = Real.sqrt ((sqDist ((g.getD (winner g x).1 []).getD (winner g x).2 []) x : ℚ) : ℝ)
           → (winner g x).1 < i ∨ ((winner g x).1 = i ∧ (winner g x).2 ≤ j)) := by
  have hAlen : (activations g x).length = g.length * C :=
    activations_length g x C hrect
  have hgpos : 0 < g.length := List.length_pos.mpr hg
  have hApos : activations g x ≠ [] := by
    intro hnil
    rw [hnil] at hAlen
    simp only [List.length_nil] at hAlen
    have := Nat.mul_pos hgpos hCpos
    omega
  have hk : argminIdx (activations g x) < (activations g x).length :=
    argminIdx_lt_length hApos
  have hwin : winner g x
      = (argminIdx (activations g x) / C, argminIdx (activations g x) % C) := by
    rw [winner, hC]
  set k := argminIdx (activations g x) with hkdef
  have hr : k / C < g.length := by
    rw [Nat.div_lt_iff_lt_mul hCpos]
    rw [hAlen] at hk
    calc k < g.length * C := hk
    _ = g.length * C := rfl
  have hc : k % C < C := Nat.mod_lt _ hCpos
  have hkrc : (k / C) * C + k % C = k := by
    have := Nat.div_add_mod k C
    calc (k / C) * C + k % C = C * (k / C) + k % C := by ring
    _ = k := this
  have hwinval : (activations g x).getD k 0
      = sqDist ((g.getD (k / C) []).getD (k % C) []) x := by
    conv_lhs => rw [← hkrc]
    exact activations_getD g x C hrect _ _ hr hc
  have hmin : (activations g x).getD k 0 = listMin (activations g x) :=
    getD_argminIdx hApos
  rw [hwin]
  refine ⟨hr, hc, ?_⟩
  intro i j hi hj
  have hidx : i * C + j < (activations g x).length := by
    rw [hAlen]
    calc i * C + j < (i + 1) * C := by
          rw [Nat.succ_mul]
          exact Nat.add_lt_add_left hj _
    _ ≤ g.length * C := Nat.mul_le_mul_right C hi
  have hij : (activations g x).getD (i * C + j) 0 = sqDist ((g.getD i []).getD j []) x :=
    activations_getD g x C hrect i j hi hj
  have hmem : (activations g x).getD (i * C + j) 0 ∈ activations g x := by
    rw [List.getD_eq_getElem _ 0 hidx]
    exact List.getElem_mem hidx
  have hle : sqDist ((g.getD (k / C) []).getD (k % C) []) x
      ≤ sqDist ((g.getD i []).getD j []) x := by
    rw [← hwinval, ← hij, hmin]
    exact listMin_le hmem
  constructor
  · apply Real.sqrt_le_sqrt
    exact_mod_cast hle
  · intro heq
    have hnn₁ : (0 : ℝ) ≤ ((sqDist ((g.getD i []).getD j []) x : ℚ) : ℝ) := by
      exact_mod_cast sqDist_nonneg _ _
    have hnn₂ : (0 : ℝ)
        ≤ ((sqDist ((g.getD (k / C) []).getD (k % C) []) x : ℚ) : ℝ) := by
      exact_mod_cast sqDist_nonneg _ _
    have heq' : sqDist ((g.getD i []).getD j []) x
        = sqDist ((g.getD (k / C) []).getD (k % C) []) x := by
      have := (Real.sqrt_inj hnn₁ hnn₂).mp heq
      exact_mod_cast this
    have hvaleq : (activations g x).getD (i * C + j) 0 = listMin (activations g x) := by
      rw [hij, heq', ← hwinval, hmin]
    have hnotlt : ¬ (i * C + j < k) := by
      intro hlt
      have := argminIdx_first (hkdef ▸ hlt)
      rw [hvaleq] at this
      exact lt_irrefl _ this
    have hkle : (k / C) * C + k % C ≤ i * C + j := by
      rw [hkrc]
      omega
    exact lex_of_flat_le hc hj hkle

/-- Witness for C5 on the concrete 2-by-2 grid of one-dimensional
weights `[[[0],[1]],[[2],[3]]]` with input `[2]`. -/
theorem C5_winner_bmu_witness :
    (winner [[[0], [1]], [[2], [3]]] [2]).1
        < ([[[0], [1]], [[2], [3]]] : List (List (List ℚ))).length
    ∧ (winner [[[0], [1]], [[2], [3]]] [2]).2 < 2
    ∧ ∀ i j, i < ([[[0], [1]], [[2], [3]]] : List (List (List ℚ))).length → j < 2 →
        Real.sqrt ((sqDist ((([[[0], [1]], [[2], [3]]] : List (List (List ℚ))).getD
              (winner [[[0], [1]], [[2], [3]]] [2]).1 []).getD
              (winner [[[0], [1]], [[2], [3]]] [2]).2 []) [2] : ℚ) : ℝ)
          ≤ Real.sqrt ((sqDist ((([[[0], [1]], [[2], [3]]] : List (List (List ℚ))).getD
              i []).getD j []) [2] : ℚ) : ℝ)
        ∧ (Real.sqrt ((sqDist ((([[[0], [1]], [[2], [3]]] : List (List (List ℚ))).getD
              i []).getD j []) [2] : ℚ) : ℝ)
            = Real.sqrt ((sqDist ((([[[0], [1]], [[2], [3]]] : List (List (List ℚ))).getD
              (winner [[[0], [1]], [[2], [3]]] [2]).1 []).getD
              (winner [[[0], [1]], [[2], [3]]] [2]).2 []) [2] : ℚ) : ℝ)
           → (winner [[[0], [1]], [[2], [3]]] [2]).1 < i
             ∨ ((winner [[[0], [1]], [[2], [3]]] [2]).1 = i
                ∧ (winner [[[0], [1]], [[2], [3]]] [2]).2 ≤ j)) :=
  C5_winner_bmu [[[0], [1]], [[2], [3]]] [2] 2 (by decide)
    (by
      intro row hr
      fin_cases hr <;> decide)
    (by decide) (by decide)
